import Mathlib

/-!
Verification of the content-ingestion pipeline of the climate-economy-ecosystem
repository, as a shallow embedding in Lean.

Text is modelled as `List Char` (Python `str` is a sequence of code points).
The relevant source functions are translated one by one:

* `scripts/unified_url_ingestion.py`:
  `RateLimiter.wait`, `UnifiedURLIngester.smart_chunker`,
  `UnifiedURLIngester.memory_exists`, `UnifiedURLIngester.store_memory`,
  `UnifiedURLIngester.process_webpage`, `UnifiedURLIngester.process_url_list`.
* `tools/data_ingestion.py`:
  `ClimateDataIngester.smart_chunker` (around LangChain's text splitter,
  modelled as an arbitrary function parameter), `store_document`,
  `get_embedding`, and the tenacity `@retry` decorator.

External services (HTTP fetch, OpenAI embeddings, Supabase inserts) appear as
explicit oracle parameters; an oracle returning `none` / `.error` models the
corresponding call raising an exception or failing.
-/

set_option maxRecDepth 10000

namespace Ingest

/-- Python's `\s` / `str.strip()` whitespace set (ASCII part plus the Unicode
whitespace code points Python treats as space). -/
def pyWhitespace : List Char :=
  [' ', '\t', '\n', '\r', '\x0b', '\x0c',
   '\x1c', '\x1d', '\x1e', '\x1f', '\x85', '\xa0',
   ' ', ' ', ' ', ' ', ' ', ' ', ' ',
   ' ', ' ', ' ', ' ', ' ',
   ' ', ' ', ' ', ' ', '　']

def pyIsSpace (c : Char) : Bool := pyWhitespace.contains c

/-- Python `str.strip()`: drop leading and trailing whitespace. -/
def pyStrip (l : List Char) : List Char :=
  ((l.dropWhile pyIsSpace).reverse.dropWhile pyIsSpace).reverse

/-- One maximal run of `k` newlines after `re.sub(r'\n{3,}', '\n\n', ...)`:
runs of three or more newlines become exactly two. -/
def nlRun (k : Nat) : List Char :=
  if 3 ≤ k then ['\n', '\n'] else List.replicate k '\n'

/-- Scanner for `re.sub(r'\n{3,}', '\n\n', text)`: `k` counts the pending run
of consecutive newlines. -/
def collapseNlAux : Nat → List Char → List Char
  | k, [] => nlRun k
  | k, c :: cs =>
    if c = '\n' then collapseNlAux (k + 1) cs
    else nlRun k ++ c :: collapseNlAux 0 cs

/-- Model of `re.sub(r'\n{3,}', '\n\n', text)` (line 138 of unified_url_ingestion.py). -/
def collapseNl (l : List Char) : List Char := collapseNlAux 0 l

/-- Scanner for `re.sub(r'\s+', ' ', text)`: `prevWs` records whether the
previous character belonged to a whitespace run already emitted as `' '`. -/
def collapseWsAux : Bool → List Char → List Char
  | _, [] => []
  | prevWs, c :: cs =>
    if pyIsSpace c then
      if prevWs then collapseWsAux true cs
      else ' ' :: collapseWsAux true cs
    else c :: collapseWsAux false cs

/-- Model of `re.sub(r'\s+', ' ', text)` (line 139 of unified_url_ingestion.py). -/
def collapseWs (l : List Char) : List Char := collapseWsAux false l

/-- Is the head of the list a whitespace character? (one-character lookahead
used by the regex-split scanner). -/
def headIsWs : List Char → Bool
  | [] => false
  | c :: _ => pyIsSpace c

/-- Is the head of the list the given character? -/
def headIs (a : Char) : List Char → Bool
  | [] => false
  | c :: _ => c = a

/-- Scanner mode for `re.split(r'([.!?]\s+|\n{2,})', text)`:
either scanning a segment, or inside a `[.!?]\s+` separator, or inside a
`\n{2,}` separator.  The payload is the separator scanned so far, reversed. -/
inductive RMode
  | norm
  | wsep (srev : List Char)
  | nsep (srev : List Char)

/-- Character-at-a-time scanner implementing Python's
`re.split(r'([.!?]\s+|\n{2,})', text)` with the capturing group: the result
interleaves segments and separators, starting and ending with a (possibly
empty) segment.  `segrev` is the current segment, reversed.  The first
alternative `[.!?]\s+` is entered when a sentence-ending punctuation mark is
followed by whitespace (greedy `\s+` = consume the maximal whitespace run);
the second when two newlines are adjacent (greedy `\n{2,}`). -/
def reSplitGo (segrev : List Char) (m : RMode) : List Char → List (List Char)
  | [] =>
    match m with
    | .norm => [segrev.reverse]
    | .wsep srev => [segrev.reverse, srev.reverse, []]
    | .nsep srev => [segrev.reverse, srev.reverse, []]
  | c :: cs =>
    match m with
    | .norm =>
      if (c = '.' ∨ c = '!' ∨ c = '?') ∧ headIsWs cs then
        reSplitGo segrev (.wsep [c]) cs
      else if c = '\n' ∧ headIs '\n' cs then
        reSplitGo segrev (.nsep [c]) cs
      else
        reSplitGo (c :: segrev) .norm cs
    | .wsep srev =>
      if headIsWs cs then reSplitGo segrev (.wsep (c :: srev)) cs
      else segrev.reverse :: (c :: srev).reverse :: reSplitGo [] .norm cs
    | .nsep srev =>
      if headIs '\n' cs then reSplitGo segrev (.nsep (c :: srev)) cs
      else segrev.reverse :: (c :: srev).reverse :: reSplitGo [] .norm cs

/-- Model of `re.split(r'([.!?]\s+|\n{2,})', text)` (line 146 of
unified_url_ingestion.py). -/
def reSplit (l : List Char) : List (List Char) := reSplitGo [] .norm l

/-- The loop `for i in range(0, len(segments), 2): segment = segments[i];
if i+1 < len(segments): segment += segments[i+1]` — each even-indexed segment
is glued to the separator that follows it. -/
def pairUnits : List (List Char) → List (List Char)
  | [] => []
  | [s] => [s]
  | s :: sep :: rest => (s ++ sep) :: pairUnits rest

/-- State of the accumulation loop of `smart_chunker`:
`chunks` = closed chunks, `cur` = `current_chunk` (a list of strings),
`curLen` = `current_length`. -/
structure CState where
  chunks : List (List Char)
  cur : List (List Char)
  curLen : Nat

/-- The trailing `chunk_overlap` (= 200) characters of a closed chunk:
`''.join(current_chunk)[max(0, len - 200):]` (truncated subtraction on `Nat`
is exactly `max(0, len - 200)`). -/
def overlapOf (j : List Char) : List Char := j.drop (j.length - 200)

/-- One iteration of the accumulation loop of
`UnifiedURLIngester.smart_chunker` (lines 148-160): if adding the next
segment would push `current_length` past `chunk_size` (= 1000) and the
current chunk is non-empty, close the chunk (stripped) and reseed with the
trailing 200-character overlap; then append the segment. -/
def chunkStep (st : CState) (u : List Char) : CState :=
  let st1 :=
    if 1000 < st.curLen + u.length ∧ st.cur ≠ [] then
      let j := st.cur.flatten
      { chunks := st.chunks ++ [pyStrip j]
        cur := [overlapOf j]
        curLen := (overlapOf j).length }
    else st
  { st1 with cur := st1.cur ++ [u], curLen := st1.curLen + u.length }

/-- Model of `if current_chunk: chunks.append(''.join(current_chunk).strip())`
(lines 162-163). -/
def finishChunks (st : CState) : List (List Char) :=
  if st.cur ≠ [] then st.chunks ++ [pyStrip st.cur.flatten] else st.chunks

/-- Model of `UnifiedURLIngester.smart_chunker` (unified_url_ingestion.py, lines
129-171) with its instance configuration `chunk_size = 1000`,
`chunk_overlap = 200`: truncate to `MAX_CONTENT_SIZE` (200000), clean up
whitespace, split into sentence-like units, accumulate greedily with overlap,
and cap the result at `MAX_CHUNKS` (20). -/
def smart_chunker (t : List Char) : List (List Char) :=
  let t1 := t.take 200000
  let t2 := collapseWs (collapseNl t1)
  let units := pairUnits (reSplit t2)
  (finishChunks (units.foldl chunkStep ⟨[], [], 0⟩)).take 20

/-- Model of `ClimateDataIngester.smart_chunker` (data_ingestion.py, lines 142-165).
The inner splitter is LangChain's `RecursiveCharacterTextSplitter`, an
external library, so it appears as an arbitrary function parameter; the
repository's own code truncates the input to `MAX_CONTENT_SIZE` (500000)
before splitting and caps the result at `MAX_CHUNKS` (50). -/
def dataChunker (split : List Char → List (List Char)) (t : List Char) :
    List (List Char) :=
  (split (t.take 500000)).take 50

/-! ## The document store (`climate_memories`) of the unified implementation

`E` abstracts the embedding-vector payload (a list of floats in the source);
the model never computes with it. -/

/-- One row of the `climate_memories` table as written by
`UnifiedURLIngester.store_memory`: content, metadata url and chunk index, and
an optional embedding (the `embedding` field is only attached when
`get_embedding` returned one). -/
structure Row (E : Type) where
  url : String
  chunkIndex : Option Nat
  content : List Char
  embedding : Option E
deriving DecidableEq

/-- The table state: the list of inserted rows. -/
abbrev Store (E : Type) := List (Row E)

/-- Observable external effects of one `store_memory` call: an embedding
request and/or an insert POST. -/
inductive Event (E : Type)
  | embedCall (content : List Char)
  | post (r : Row E)
deriving DecidableEq

/-- True table contents: is a row with the identity key (url, chunk_index)
stored?  This is what a successful probe GET reports. -/
def keyStored (s : Store E) (url : String) (ci : Option Nat) : Bool :=
  s.any fun r => r.url == url && r.chunkIndex == ci

/-- Model of `UnifiedURLIngester.memory_exists` (lines 216-235): point lookup
by the metadata identity key (url, chunk_index).  `probeOk` says whether the
probe's HTTP GET completed with status 200; on an exception or a non-200
response the function returns `False` even when the key is stored (the
fail-open `except` path, lines 231-235, and the `status_code == 200`
conjunct of line 231). -/
def memory_exists (probeOk : Bool) (s : Store E) (url : String)
    (ci : Option Nat) : Bool :=
  probeOk && keyStored s url ci

/-- Model of `UnifiedURLIngester.store_memory` (lines 237-277).  `embRes` is the value
`get_embedding` would return for this content (`none` = the embedding call
failed and was logged); `postOk` says whether the Supabase POST returns
status 201.  Order of the translated branches follows the source: the
short-content validation (line 242), then the `memory_exists` check
(line 246, with `probeOk` saying whether that probe's GET succeeded), then
embedding generation and the insert.  A failed POST is modelled as inserting
nothing. -/
def store_memory (s : Store E) (content : List Char) (url : String)
    (ci : Option Nat) (probeOk : Bool) (embRes : Option E) (postOk : Bool) :
    Bool × Store E × List (Event E) :=
  if content = [] ∨ (pyStrip content).length < 50 then (false, s, [])
  else if memory_exists probeOk s url ci then (true, s, [])
  else
    let row : Row E := ⟨url, ci, content, embRes⟩
    if postOk then (true, s ++ [row], [.embedCall content, .post row])
    else (false, s, [.embedCall content, .post row])

/-- The chunk-storage loop of `UnifiedURLIngester.process_webpage`
(lines 320-332): store each chunk under chunk_index `i`, `i+1`, ..., counting
successes.  `embedO` gives the embedding service's answer per content,
`probeO` whether the existence probe's GET succeeds per chunk index, and
`postO` the POST outcome per chunk index. -/
def storeChunksFrom (embedO : List Char → Option E) (probeO postO : Nat → Bool)
    (s : Store E) (url : String) (i : Nat) : List (List Char) → Store E × Nat
  | [] => (s, 0)
  | c :: rest =>
    let r := store_memory s c url (some i) (probeO i) (embedO c) (postO i)
    let r2 := storeChunksFrom embedO probeO postO r.2.1 url (i + 1) rest
    (r2.1, (if r.1 then 1 else 0) + r2.2)

/-! ## The crawl orchestrator of the unified implementation -/

/-- The external world a crawl runs against: `fetch url` returns the
extracted body text plus the same-page hrefs (after the relative-href join),
or `none` when the HTTP GET / parse raises; `dom` is `urlparse(·).netloc`;
`embedO`, `probeO` and `postO` are the storage oracles of
`storeChunksFrom`. -/
structure CrawlEnv (E : Type) where
  fetch : String → Option (List Char × List String)
  dom : String → String
  embedO : List Char → Option E
  probeO : Nat → Bool
  postO : Nat → Bool

/-- The mutable state of a `UnifiedURLIngester` during a crawl: the document
store, `processed_urls`, `success_count`, `failed_count`, plus a log of every
`process_webpage` invocation `(url, tier)`. -/
structure IngestState (E : Type) where
  store : Store E
  visited : List String
  successCount : Nat
  failedCount : Nat
  calls : List (String × Nat)
deriving DecidableEq

/-- Model of `UnifiedURLIngester.process_webpage` (lines 279-347).  Fetch, extract
(folded into the fetch oracle), collect same-domain links when `tier < 3`,
chunk with `smart_chunker`, store every chunk, and report success iff at
least one chunk stored; any exception up to and including the fetch/parse
stage is the `none` branch, which returns `(False, [])` and bumps
`failed_count`.  `list(set(...))` dedup is modelled as `eraseDups`. -/
def processWebpage (env : CrawlEnv E) (st : IngestState E) (url : String)
    (tier : Nat) : (Bool × List String) × IngestState E :=
  let st0 := { st with calls := st.calls ++ [(url, tier)] }
  match env.fetch url with
  | none => ((false, []), { st0 with failedCount := st0.failedCount + 1 })
  | some (body, hrefs) =>
    let additional :=
      if tier < 3 then hrefs.filter (fun h => env.dom h == env.dom url) else []
    let chunks := smart_chunker body
    let r := storeChunksFrom env.embedO env.probeO env.postO st0.store url 0 chunks
    let success := decide (0 < r.2)
    let st1 :=
      if success then { st0 with store := r.1, successCount := st0.successCount + 1 }
      else { st0 with store := r.1, failedCount := st0.failedCount + 1 }
    ((success, additional.eraseDups), st1)

/-- The per-URL loop of `UnifiedURLIngester.process_url_list`
(lines 354-365): skip already-processed URLs, add to `processed_urls`,
process the page, and accumulate the local `success_count` and (for
successful pages only) the discovered links. -/
def processUrlsLoop (env : CrawlEnv E) :
    List String → Nat → IngestState E → IngestState E × Nat × List String
  | [], _, st => (st, 0, [])
  | url :: rest, tier, st =>
    if url ∈ st.visited then processUrlsLoop env rest tier st
    else
      let st1 := { st with visited := st.visited ++ [url] }
      let r := processWebpage env st1 url tier
      let rr := processUrlsLoop env rest tier r.2
      (rr.1, (if r.1.1 then 1 else 0) + rr.2.1,
       (if r.1.1 then r.1.2 else []) ++ rr.2.2)

/-- Model of `UnifiedURLIngester.process_url_list` (lines 349-375): process the list,
then recurse on the not-yet-visited discovered links at `tier + 1`, but only
when `tier < 3`.  The recursion of the source is bounded by that guard; the
explicit `fuel` only majorises the recursion depth (any `fuel > 3 - tier`
gives the source's behaviour) and keeps the definition structurally
recursive. -/
def process_url_list (env : CrawlEnv E) (fuel : Nat) (urls : List String)
    (tier : Nat) (st : IngestState E) : IngestState E × Nat :=
  match fuel with
  | 0 => (st, 0)
  | fuel + 1 =>
    let r := processUrlsLoop env urls tier st
    if tier < 3 ∧ r.2.2 ≠ [] then
      let next := r.2.2.filter (fun u => !(r.1.visited.contains u))
      if next ≠ [] then
        let r2 := process_url_list env fuel next (tier + 1) r.1
        (r2.1, r.2.1 + r2.2)
      else (r.1, r.2.1)
    else (r.1, r.2.1)

/-! ## RateLimiter -/

/-- The clock readings observed during one `RateLimiter.wait()` call
(lines 79-86 of unified_url_ingestion.py): `now` is the first `time.time()`
reading taken under the lock, `stamp` the second one, which is recorded as
the new `last_call_time`. -/
structure WaitObs where
  now : ℚ
  stamp : ℚ

/-- The clock semantics of one `wait()` body run with `last_call_time =
last`: the clock is monotone (`last ≤ now`), and if `elapsed = now - last`
is below `min_interval` then `asyncio.sleep(min_interval - elapsed)` runs,
so the second reading is at least `now + (min_interval - elapsed)`;
otherwise it is merely at least `now`. -/
def waitSpec (minInterval last : ℚ) (o : WaitObs) : Prop :=
  last ≤ o.now ∧
    (if o.now - last < minInterval
     then o.now + (minInterval - (o.now - last)) ≤ o.stamp
     else o.now ≤ o.stamp)

/-- A serialized sequence of `wait()` calls on one instance (the
`asyncio.Lock` admits one body at a time): each call sees the previous
call's recorded `stamp` as `last_call_time`. -/
def ValidRun (minInterval : ℚ) : ℚ → List WaitObs → Prop
  | _, [] => True
  | last, o :: os => waitSpec minInterval last o ∧ ValidRun minInterval o.stamp os

/-- The successive recorded `last_call_time` values of a run. -/
def stamps (os : List WaitObs) : List ℚ := os.map (·.stamp)

/-! ## tenacity retry and the embedding clients -/

/-- Model of `@retry(stop=stop_after_attempt(n))`: run the attempt-indexed body until
it returns without raising or `n` attempts are spent; the result is paired
with the number of attempts actually made.  `f i` is attempt number `i`
(0-based); `.error` models the body raising. -/
def retryRun (f : Nat → Except Unit A) : Nat → Nat → Except Unit A × Nat
  | 0, _ => (.error (), 0)
  | 1, i => (f i, 1)
  | n + 2, i =>
    match f i with
    | .ok a => (.ok a, 1)
    | .error _ =>
      let r := retryRun f (n + 1) (i + 1)
      (r.1, r.2 + 1)

/-- Retry wrapper `stop_after_attempt(3)`, as attached to `ClimateDataIngester.
get_embedding` and `ClimateDataIngester.store_document`. -/
def retry3 (f : Nat → Except Unit A) : Except Unit A × Nat := retryRun f 3 0

/-- The body of `ClimateDataIngester.get_embedding` (data_ingestion.py,
lines 253-266): the OpenAI call (`api`) is wrapped in
`try: ... except Exception: return None` — every exception is swallowed and
the body returns `None` instead of raising. -/
def getEmbeddingBody (api : Nat → Except Unit E) (attempt : Nat) :
    Except Unit (Option E) :=
  match api attempt with
  | .ok v => .ok (some v)
  | .error _ => .ok none

/-- Model of `ClimateDataIngester.get_embedding` as deployed: the tenacity retry
wrapper around the exception-swallowing body. -/
def dataGetEmbedding (api : Nat → Except Unit E) : Except Unit (Option E) × Nat :=
  retry3 (getEmbeddingBody api)

/-- Model of `UnifiedURLIngester.get_embedding` (unified_url_ingestion.py, lines
117-127): a single attempt, exceptions swallowed into `None`; no retry
decorator is attached at all. -/
def unifiedGetEmbedding (api : Except Unit E) : Option E :=
  match api with
  | .ok v => some v
  | .error _ => none

/-! ## store_document of the data_ingestion implementation -/

/-- A row of the `climate_memories` table as written by
`ClimateDataIngester.store_document` (only the fields the claims mention). -/
structure DRow (E : Type) where
  content : List Char
  url : Option String
  filePath : Option String
  sourceType : String
  chunkIndex : Nat
  embedding : E
deriving DecidableEq

/-- Observable external effects of one `store_document` call. -/
inductive DEvent (E : Type)
  | embedCall (content : List Char)
  | insert (r : DRow E)
deriving DecidableEq

/-- Model of `ClimateDataIngester.store_document` (data_ingestion.py, lines 171-247),
one attempt of the body (the body catches all its own exceptions and returns
a bool, so the attached `@retry` never re-runs it).  Checks in source order:
short/empty text, missing url and file_path, missing source_type — each
returns `False` before the embedding call; then the embedding is generated
(`embRes`), an invalid embedding returns `False`; finally the insert runs,
`insertOk` saying whether Supabase accepted it. -/
def store_document (ds : List (DRow E)) (sourceType : String)
    (text : List Char) (metaUrl metaPath : Option String) (chunkIndex : Nat)
    (embRes : Option E) (insertOk : Bool) :
    Bool × List (DRow E) × List (DEvent E) :=
  if text = [] ∨ (pyStrip text).length < 50 then (false, ds, [])
  else if metaUrl = none ∧ metaPath = none then (false, ds, [])
  else if sourceType = "" then (false, ds, [])
  else
    match embRes with
    | none => (false, ds, [.embedCall text])
    | some e =>
      let row : DRow E := ⟨text, metaUrl, metaPath, sourceType, chunkIndex, e⟩
      if insertOk then (true, ds ++ [row], [.embedCall text, .insert row])
      else (false, ds, [.embedCall text, .insert row])

/-! ## Instrumented chunker and chunker invariants

`smartChunkerAccs` is `smart_chunker` instrumented to also record, for each
emitted chunk, the accumulated content `''.join(current_chunk)` from which
the chunk was stripped; it is used to state precisely what the "accumulated
content" of a chunk is. -/

/-- State `CState` plus, for each emitted chunk, its pre-strip accumulated
content. -/
structure TState where
  chunks : List (List Char)
  accs : List (List Char)
  cur : List (List Char)
  curLen : Nat

/-- Variant of `chunkStep` recording the accumulated content of the closed chunk. -/
def tChunkStep (st : TState) (u : List Char) : TState :=
  let st1 :=
    if 1000 < st.curLen + u.length ∧ st.cur ≠ [] then
      let j := st.cur.flatten
      { chunks := st.chunks ++ [pyStrip j]
        accs := st.accs ++ [j]
        cur := [overlapOf j]
        curLen := (overlapOf j).length }
    else st
  { st1 with cur := st1.cur ++ [u], curLen := st1.curLen + u.length }

/-- Variant of `finishChunks` recording the accumulated content of the final chunk. -/
def tFinish (st : TState) : List (List Char) × List (List Char) :=
  if st.cur ≠ [] then
    (st.chunks ++ [pyStrip st.cur.flatten], st.accs ++ [st.cur.flatten])
  else (st.chunks, st.accs)

/-- Output of `smart_chunker` together with the accumulated content of each chunk. -/
def smartChunkerAccs (t : List Char) : List (List Char) × List (List Char) :=
  let t2 := collapseWs (collapseNl (t.take 200000))
  let units := pairUnits (reSplit t2)
  let p := tFinish (units.foldl tChunkStep ⟨[], [], [], 0⟩)
  (p.1.take 20, p.2.take 20)

/-- Forget the instrumentation of a `TState`. -/
def projT (ts : TState) : CState := ⟨ts.chunks, ts.cur, ts.curLen⟩

/-- Shape invariant of `re.split` output with a capturing group: an
odd-length alternation segment, separator, segment, ..., segment in which
every separator is non-empty. -/
def AltShape : List (List Char) → Prop
  | [] => False
  | [_] => True
  | _ :: sep :: rest => sep ≠ [] ∧ AltShape rest

/-- Every unit of the accumulation loop except possibly the last is
non-empty (each non-final unit ends with its non-empty separator). -/
def UnitsOk : List (List Char) → Prop
  | [] => True
  | [_] => True
  | u :: v :: rest => u ≠ [] ∧ UnitsOk (v :: rest)

/-- Overlap relation between adjacent (chunk, accumulated content) pairs of
the instrumented chunker: the overlap region — the trailing `min(200, |A|)`
characters of the earlier chunk's actual accumulated content `A` — is
non-empty, and the later chunk's accumulated content is exactly that
overlap followed by the segments accumulated after the close. -/
def AccPair (a b : List Char × List Char) : Prop :=
  overlapOf a.2 ≠ [] ∧ ∃ rest, b.2 = overlapOf a.2 ++ rest

/-! ## Concrete inputs used by witnesses and counterexamples -/

/-- Exactly 50 characters: the minimal content `store_memory` accepts. -/
def c50 : List Char := List.replicate 50 'a'

/-- A stored row for the idempotency witness. -/
def wRow : Row Unit := ⟨"u", some 0, c50, none⟩

/-- A 60-character page body (long enough to store). -/
def body60 : List Char := List.replicate 60 'b'

/-- The empty ingester state. -/
def stEmpty : IngestState Unit := ⟨[], [], 0, 0, []⟩

/-- A three-page world: seed "a" links to "b" and "c"; "c" fails to fetch. -/
def envW : CrawlEnv Unit :=
  ⟨fun u => if u = "a" then some (body60, ["b", "c"])
            else if u = "b" then some (body60, []) else none,
   fun _ => "d", fun _ => none, fun _ => true, fun _ => true⟩

/-- A world whose single page "s" has two same-domain links but too-short
content, so every chunk store fails while links are still collected. -/
def env8 : CrawlEnv Unit :=
  ⟨fun u => if u = "s" then some (['h', 'i'], ["l1", "l2"]) else none,
   fun _ => "d", fun _ => none, fun _ => true, fun _ => true⟩

/-- Two observed `wait()` calls for the rate-limiter witness
(`calls_per_second = 2`, so `min_interval = 1/2`). -/
def obsW : List WaitObs := [⟨0, 1/2⟩, ⟨3/5, 1⟩]

/-- An embedding API that raises on the first call and succeeds on the
second: the transient-failure scenario of the retry policy. -/
def apiFailOnce : Nat → Except Unit Nat :=
  fun i => if i = 0 then .error () else .ok 7

/-- The overlap-property counterexample input: 1001 `x`s, a full stop and a
space, so the accumulated content exceeds `chunk_size` exactly when the
final empty unit is reached. -/
def ex7 : List Char := List.replicate 1001 'x' ++ ['.', ' ']

/-- First chunk of `smart_chunker ex7`. -/
def ex7c0 : List Char := List.replicate 1001 'x' ++ ['.']

/-- Second chunk of `smart_chunker ex7`. -/
def ex7c1 : List Char := List.replicate 198 'x' ++ ['.']

/-- Accumulated content of the second chunk (the 200-character overlap). -/
def ex7a1 : List Char := List.replicate 198 'x' ++ ['.', ' ']

/-! ## Theorems -/

/-- C2: for every input text, the unified `smart_chunker` returns at most 20
chunks and its output depends only on the first 200000 characters of the
input (the input is truncated to that length before any splitting), and the
data_ingestion `smart_chunker` returns at most 50 chunks and depends only on
the first 500000 characters, for any inner splitter. -/
theorem c2_chunk_bound :
    ∀ (t : List Char) (split : List Char → List (List Char)),
      (smart_chunker t).length ≤ 20 ∧
      smart_chunker t = smart_chunker (t.take 200000) ∧
      (dataChunker split t).length ≤ 50 ∧
      dataChunker split t = dataChunker split (t.take 500000) := by
  intro t split
  refine ⟨?_, ?_, ?_, ?_⟩
  · exact List.length_take_le 20 _
  · simp [smart_chunker, List.take_take]
  · exact List.length_take_le 50 _
  · simp [dataChunker, List.take_take]

/-- C3: across any serialized sequence of `wait()` calls on one RateLimiter
instance with `calls_per_second = c > 0`, consecutive recorded
`last_call_time` stamps are at least `min_interval = 1/c` apart; `wait()`
never fails, it only delays. -/
theorem c3_rate_limit :
    ∀ (c last : ℚ) (os : List WaitObs), 0 < c → ValidRun (1/c) last os →
      List.Chain' (fun a b => a + 1/c ≤ b) (stamps os) := by
  intro c last os hc
  induction os generalizing last with
  | nil => intro _; simp [stamps]
  | cons o os ih =>
    intro h
    simp only [ValidRun] at h
    obtain ⟨_, hv⟩ := h
    have tail := ih o.stamp hv
    simp only [stamps, List.map_cons]
    refine List.chain'_cons'.mpr ⟨?_, tail⟩
    intro y hy
    cases os with
    | nil => simp [stamps] at hy
    | cons o2 os2 =>
      simp only [stamps, List.map_cons, List.head?_cons, Option.mem_def,
        Option.some.injEq] at hy
      subst hy
      simp only [ValidRun, waitSpec] at hv
      obtain ⟨⟨hmono, hcond⟩, _⟩ := hv
      by_cases hlt : o2.now - o.stamp < 1 / c
      · rw [if_pos hlt] at hcond; linarith
      · rw [if_neg hlt] at hcond; push_neg at hlt; linarith

/-- C3 witness: a concrete two-call run at `calls_per_second = 2`
(`min_interval = 1/2`) satisfying the clock model, whose recorded stamps are
at least `1/2` apart. -/
theorem c3_rate_limit_witness :
    ValidRun (1/2) 0 obsW ∧
      List.Chain' (fun a b => a + 1/(2:ℚ) ≤ b) (stamps obsW) := by
  have hrun : ValidRun (1/2) 0 obsW := by
    norm_num [obsW, ValidRun, waitSpec]
  exact ⟨hrun, c3_rate_limit 2 0 obsW (by norm_num) hrun⟩

/-- C4: content whose stripped length is below 50 makes `store_memory` and
`store_document` return failure with no insert and no embedding call, and
the tenacity wrapper around such a call performs exactly one attempt (the
validation failure is returned, not raised, so it is never retried). -/
theorem c4_short_content :
    ∀ (E : Type) (s : Store E) (ds : List (DRow E)) (c : List Char)
      (url stype : String) (ci : Option Nat) (pb : Bool) (e : Option E)
      (p : Bool) (mu mp : Option String) (k : Nat),
      (pyStrip c).length < 50 →
      store_memory s c url ci pb e p = (false, s, []) ∧
      store_document ds stype c mu mp k e p = (false, ds, []) ∧
      retry3 (fun _ => .ok (store_document ds stype c mu mp k e p))
        = (.ok ((false : Bool), ds, ([] : List (DEvent E))), 1) := by
  intro E s ds c url stype ci pb e p mu mp k h
  have h1 : store_memory s c url ci pb e p = (false, s, []) := by
    simp [store_memory, h]
  have h2 : store_document ds stype c mu mp k e p = (false, ds, []) := by
    simp [store_document, h]
  exact ⟨h1, h2, by rw [h2]; rfl⟩

/-- C4 witness: the two-character content `"hi"` is rejected by
`store_memory` without touching the store. -/
theorem c4_short_content_witness :
    store_memory ([] : Store Unit) ['h', 'i'] "u" none true none true
      = (false, [], []) :=
  (c4_short_content Unit [] [] ['h', 'i'] "u" "t" none true none true none
    none 0 (by decide)).1

/-- C6 (code-bug evidence): with an embedding API that raises once and then
succeeds, the deployed `ClimateDataIngester.get_embedding` — tenacity retry
around a body that swallows every exception — returns `None` after exactly
one underlying attempt, although the attached `stop_after_attempt(3)` policy
applied to the raw call would succeed on the second of two attempts; the
unified implementation's `get_embedding` has no retry at all and maps the
same failure to `None`. -/
theorem c6_retry_evidence :
    dataGetEmbedding apiFailOnce = (.ok none, 1) ∧
    retry3 apiFailOnce = (.ok 7, 2) ∧
    unifiedGetEmbedding (.error () : Except Unit Nat) = none :=
  ⟨rfl, rfl, rfl⟩

/-- C10: in the unified implementation an embedding failure does not block
storage: with no embedding available the record is still posted (without an
embedding field) and `store_memory` succeeds, and the boolean result of
`store_memory` never depends on the embedding value at all. -/
theorem c10_embedding_optional :
    ∀ (E : Type) (s : Store E) (c : List Char) (url : String) (ci : Option Nat),
      (50 ≤ (pyStrip c).length → memory_exists true s url ci = false →
        store_memory s c url ci true (none : Option E) true
          = (true, s ++ [⟨url, ci, c, none⟩],
             [.embedCall c, .post ⟨url, ci, c, none⟩])) ∧
      (∀ (pb : Bool) (e1 e2 : Option E) (p : Bool),
        (store_memory s c url ci pb e1 p).1
          = (store_memory s c url ci pb e2 p).1) := by
  intro E s c url ci
  constructor
  · intro hlen hex
    have hne : ¬(c = [] ∨ (pyStrip c).length < 50) := by
      rintro (rfl | hlt)
      · exact absurd hlen (by decide)
      · omega
    simp [store_memory, hne, hex]
  · intro pb e1 e2 p
    by_cases h1 : c = [] ∨ (pyStrip c).length < 50
    · simp [store_memory, h1]
    · by_cases h2 : memory_exists pb s url ci
      · simp [store_memory, h1, h2]
      · cases p <;> simp [store_memory, h1, h2]

/-- Helper: `store_memory` never removes rows, so a stored identity key
stays stored. -/
theorem store_memory_keeps_key {E : Type} {s : Store E} {u : String}
    {ci : Option Nat} (c : List Char) (url : String) (ci2 : Option Nat)
    (pb : Bool) (e : Option E) (p : Bool) (h : keyStored s u ci = true) :
    keyStored (store_memory s c url ci2 pb e p).2.1 u ci = true := by
  by_cases h1 : c = [] ∨ (pyStrip c).length < 50
  · simpa [store_memory, h1] using h
  · by_cases h2 : memory_exists pb s url ci2 = true
    · simpa [store_memory, h1, h2] using h
    · cases p
      · simpa [store_memory, h1, h2] using h
      · simp only [store_memory, if_neg h1, if_neg h2, if_true]
        simp only [keyStored] at h
        simp [keyStored, List.any_append, h]

/-- Helper: the chunk-storage loop never removes rows either. -/
theorem storeChunksFrom_keeps_key {E : Type} {u : String} {ci : Option Nat}
    (eo : List Char → Option E) (pr po : Nat → Bool) (url : String) :
    ∀ (cs : List (List Char)) (s : Store E) (i : Nat),
      keyStored s u ci = true →
      keyStored (storeChunksFrom eo pr po s url i cs).1 u ci = true := by
  intro cs
  induction cs with
  | nil => intro s i h; simpa [storeChunksFrom] using h
  | cons c rest ih =>
    intro s i h
    simp only [storeChunksFrom]
    exact ih _ _ (store_memory_keeps_key c url (some i) (pr i) (eo c) (po i) h)

/-- Helper: after a freshly inserted row, the inserted identity key is
stored. -/
theorem keyStored_push {E : Type} (s : Store E) (url : String)
    (ci : Option Nat) (c : List Char) (e : Option E) :
    keyStored (s ++ [⟨url, ci, c, e⟩]) url ci = true := by
  simp [keyStored, List.any_append]

/-- Helper for C1, generalized over the starting chunk index: re-running the
chunk-storage loop over the store produced by a first run whose POSTs all
succeeded leaves the store unchanged, provided the second run's existence
probes succeed; the first run's probe outcomes and the second run's
embedding results and POST outcomes are arbitrary. -/
theorem storeChunksFrom_idem {E : Type} (e1 e2 : List Char → Option E)
    (pr1 p1 pr2 p2 : Nat → Bool) (url : String)
    (hp : ∀ i, p1 i = true) (hpr : ∀ i, pr2 i = true) :
    ∀ (cs : List (List Char)) (s : Store E) (i : Nat),
      (storeChunksFrom e2 pr2 p2
          (storeChunksFrom e1 pr1 p1 s url i cs).1 url i cs).1
        = (storeChunksFrom e1 pr1 p1 s url i cs).1 := by
  intro cs
  induction cs with
  | nil => intro s i; rfl
  | cons c rest ih =>
    intro s i
    by_cases h1 : c = [] ∨ (pyStrip c).length < 50
    · simp only [storeChunksFrom, store_memory, if_pos h1]
      exact ih s (i + 1)
    · by_cases h2 : memory_exists (pr1 i) s url (some i) = true
      · have hks : keyStored s url (some i) = true := by
          have h2b := h2
          simp only [memory_exists, Bool.and_eq_true] at h2b
          exact h2b.2
        have hkey : keyStored
            (storeChunksFrom e1 pr1 p1 s url (i + 1) rest).1 url (some i)
              = true :=
          storeChunksFrom_keeps_key e1 pr1 p1 url rest s (i + 1) hks
        have hex2 : memory_exists (pr2 i)
            (storeChunksFrom e1 pr1 p1 s url (i + 1) rest).1 url (some i)
              = true := by
          simp [memory_exists, hpr i, hkey]
        simp only [storeChunksFrom, store_memory, if_neg h1, if_pos h2,
          if_pos hex2]
        exact ih s (i + 1)
      · have hp1 : p1 i = true := hp i
        have hkey : keyStored
            (storeChunksFrom e1 pr1 p1 (s ++ [⟨url, some i, c, e1 c⟩]) url
              (i + 1) rest).1 url (some i) = true :=
          storeChunksFrom_keeps_key e1 pr1 p1 url rest _ (i + 1)
            (keyStored_push s url (some i) c (e1 c))
        have hex2 : memory_exists (pr2 i)
            (storeChunksFrom e1 pr1 p1 (s ++ [⟨url, some i, c, e1 c⟩]) url
              (i + 1) rest).1 url (some i) = true := by
          simp [memory_exists, hpr i, hkey]
        simp only [storeChunksFrom, store_memory, if_neg h1, if_neg h2, hp1,
          if_true, if_pos hex2]
        exact ih (s ++ [⟨url, some i, c, e1 c⟩]) (i + 1)

/-- C1 counterexample: the existence probe is fail-open (an exception or
non-200 response makes `memory_exists` report `False` even for a stored
key), so a second `store_memory` call for the already-stored key
`("u", 0)` whose probe GET fails returns success *and* inserts a duplicate
row — the claim's unconditional "success without inserting a new record /
zero new rows" is false when the probe fails. -/
theorem c1_probe_counterexample :
    store_memory [wRow] c50 "u" (some 0) false none true
      = (true, [wRow, wRow], [.embedCall c50, .post wRow]) ∧
    (store_memory [wRow] c50 "u" (some 0) false none true).2.1 ≠ [wRow] :=
  ⟨by decide, by decide⟩

/-- C1 (amended): when the existence probe's GET succeeds, a second
`store_memory` call for an identity key that is already stored returns
success without inserting anything (the `memory_exists` check runs before
the insert), and re-ingesting the same chunk list for the same URL stores
zero new rows — the store after the second run equals the store after the
first — provided the first run's POSTs succeeded and the second run's
probes succeed.  The probe is fail-open, so a probe failure can instead
insert a duplicate (see the counterexample). -/
theorem c1_idempotent :
    (∀ (E : Type) (s : Store E) (c : List Char) (url : String)
       (ci : Option Nat) (e : Option E) (p : Bool),
       50 ≤ (pyStrip c).length → memory_exists true s url ci = true →
       store_memory s c url ci true e p = (true, s, [])) ∧
    (∀ (E : Type) (e1 e2 : List Char → Option E) (pr1 p1 pr2 p2 : Nat → Bool)
       (s : Store E) (url : String) (cs : List (List Char)),
       (∀ i, p1 i = true) → (∀ i, pr2 i = true) →
       (storeChunksFrom e2 pr2 p2
           (storeChunksFrom e1 pr1 p1 s url 0 cs).1 url 0 cs).1
         = (storeChunksFrom e1 pr1 p1 s url 0 cs).1) := by
  constructor
  · intro E s c url ci e p hlen hex
    have hne : ¬(c = [] ∨ (pyStrip c).length < 50) := by
      rintro (rfl | hlt)
      · exact absurd hlen (by decide)
      · omega
    simp [store_memory, hne, hex]
  · intro E e1 e2 pr1 p1 pr2 p2 s url cs hp hpr
    exact storeChunksFrom_idem e1 e2 pr1 p1 pr2 p2 url hp hpr cs s 0

/-- C1 witness: re-storing the already-present key `("u", 0)` with valid
content and a successful probe returns success and leaves the one-row store
unchanged. -/
theorem c1_idempotent_witness :
    store_memory [wRow] c50 "u" (some 0) true (none : Option Unit) true
      = (true, [wRow], []) :=
  c1_idempotent.1 Unit [wRow] c50 "u" (some 0) none true (by decide)
    (by decide)

/-- C10 witness: storing 50 valid characters into the empty store with a
failed embedding succeeds and records a row without an embedding. -/
theorem c10_embedding_optional_witness :
    store_memory ([] : Store Unit) c50 "u" (some 0) true none true
      = (true, [⟨"u", some 0, c50, none⟩],
         [.embedCall c50, .post ⟨"u", some 0, c50, none⟩]) :=
  (c10_embedding_optional Unit [] c50 "u" (some 0)).1 (by decide) (by decide)

/-- Helper: one `processWebpage` invocation appends exactly its own call to
the log. -/
theorem processWebpage_calls {E : Type} (env : CrawlEnv E)
    (st : IngestState E) (url : String) (tier : Nat) :
    (processWebpage env st url tier).2.calls = st.calls ++ [(url, tier)] := by
  simp only [processWebpage]
  cases h : env.fetch url with
  | none => rfl
  | some v =>
    cases v with
    | mk body hrefs =>
      dsimp only
      split <;> rfl

/-- Helper: the per-URL loop only logs calls at its own tier, so a call log
bounded by 3 stays bounded by 3 when the loop runs at a tier of at most 3. -/
theorem processUrlsLoop_calls_le {E : Type} (env : CrawlEnv E) :
    ∀ (urls : List String) (tier : Nat) (st : IngestState E),
      tier ≤ 3 → (∀ p ∈ st.calls, p.2 ≤ 3) →
      ∀ p ∈ (processUrlsLoop env urls tier st).1.calls, p.2 ≤ 3 := by
  intro urls
  induction urls with
  | nil => intro tier st _ hst; simpa [processUrlsLoop] using hst
  | cons url rest ih =>
    intro tier st htier hst
    by_cases hv : url ∈ st.visited
    · simpa [processUrlsLoop, hv] using ih tier st htier hst
    · simp only [processUrlsLoop, if_neg hv]
      apply ih tier _ htier
      intro p hp
      rw [processWebpage_calls] at hp
      rcases List.mem_append.mp hp with h | h
      · exact hst p h
      · have : p = (url, tier) := by simpa using h
        rw [this]
        exact htier

/-- C5: a crawl started by `process_url_list` at a tier of at most 3 never
invokes `process_webpage` with a tier greater than 3: links are collected
only below tier 3 and re-enqueued at `tier + 1`. -/
theorem c5_tier_bound :
    ∀ (E : Type) (env : CrawlEnv E) (fuel : Nat) (urls : List String)
      (tier : Nat) (st : IngestState E),
      tier ≤ 3 → (∀ p ∈ st.calls, p.2 ≤ 3) →
      ∀ p ∈ (process_url_list env fuel urls tier st).1.calls, p.2 ≤ 3 := by
  intro E env fuel
  induction fuel with
  | zero => intro urls tier st _ hst; simpa [process_url_list] using hst
  | succ fuel ih =>
    intro urls tier st htier hst
    simp only [process_url_list]
    have hloop := processUrlsLoop_calls_le env urls tier st htier hst
    by_cases hcond : tier < 3 ∧ (processUrlsLoop env urls tier st).2.2 ≠ []
    · rw [if_pos hcond]
      obtain ⟨ht3, -⟩ := hcond
      by_cases hnext : (processUrlsLoop env urls tier st).2.2.filter
          (fun u => !((processUrlsLoop env urls tier st).1.visited.contains u))
            ≠ []
      · rw [if_pos hnext]
        exact ih _ (tier + 1) _ (by omega) hloop
      · rw [if_neg hnext]
        exact hloop
    · rw [if_neg hcond]
      exact hloop

/-- C5 witness: in the concrete three-page world `envW`, the discovered link
"b" is fetched at tier 2 and that recorded tier is within the bound. -/
theorem c5_tier_bound_witness : (("b", 2) : String × Nat).2 ≤ 3 :=
  c5_tier_bound Unit envW 4 ["a"] 1 stEmpty (by decide) (by simp [stEmpty])
    ("b", 2) (by decide)

/-- C8 counterexample: a page whose fetch succeeds but whose every chunk
fails to store (content of 2 characters) is counted failed yet returns its
collected same-domain links, so the return value is not `(False, [])` as the
claim states for failures at the store stage. -/
theorem c8_containment_counterexample :
    (processWebpage env8 stEmpty "s" 1).1 = (false, ["l1", "l2"]) ∧
    (processWebpage env8 stEmpty "s" 1).1 ≠ (false, ([] : List String)) :=
  ⟨by decide, by decide⟩

theorem processWebpage_fetch_none {E : Type} (env : CrawlEnv E)
    (st : IngestState E) (url : String) (tier : Nat)
    (hf : env.fetch url = none) :
    processWebpage env st url tier =
      ((false, []),
       { st with calls := st.calls ++ [(url, tier)],
                 failedCount := st.failedCount + 1 }) := by
  simp [processWebpage, hf]

/-- C8 (amended): `process_webpage` never propagates a failure: a fetch- or
parse-stage exception yields `(False, [])` and only bumps `failed_count`
(store-stage failures also return `False` but may carry collected links),
and `process_url_list` then simply continues with the remaining URLs. -/
theorem c8_failure_containment :
    ∀ (E : Type) (env : CrawlEnv E) (st : IngestState E) (url : String)
      (tier : Nat) (rest : List String),
      (env.fetch url = none →
        processWebpage env st url tier =
          ((false, []),
           { st with calls := st.calls ++ [(url, tier)],
                     failedCount := st.failedCount + 1 })) ∧
      (url ∉ st.visited → env.fetch url = none →
        processUrlsLoop env (url :: rest) tier st =
          processUrlsLoop env rest tier
            { st with visited := st.visited ++ [url],
                      calls := st.calls ++ [(url, tier)],
                      failedCount := st.failedCount + 1 }) := by
  intro E env st url tier rest
  refine ⟨processWebpage_fetch_none env st url tier, ?_⟩
  intro hv hf
  simp only [processUrlsLoop, if_neg hv]
  rw [processWebpage_fetch_none env _ url tier hf]
  simp

/-- Helper: stripping only removes characters. -/
theorem pyStrip_subset (l : List Char) : ∀ c ∈ pyStrip l, c ∈ l := by
  intro c hc
  simp only [pyStrip, List.mem_reverse] at hc
  have h1 := (List.dropWhile_suffix (l := (l.dropWhile pyIsSpace).reverse)
    pyIsSpace).sublist.subset hc
  rw [List.mem_reverse] at h1
  exact (List.dropWhile_suffix pyIsSpace).sublist.subset h1

/-- Helper: the whitespace-collapse pass never emits a newline (every
whitespace run becomes a single ordinary space). -/
theorem collapseWsAux_no_nl : ∀ (b : Bool) (l : List Char),
    '\n' ∉ collapseWsAux b l := by
  intro b l
  induction l generalizing b with
  | nil => simp [collapseWsAux]
  | cons c cs ih =>
    by_cases hc : pyIsSpace c
    · cases b
      · simp only [collapseWsAux, hc, if_true, if_false, Bool.false_eq_true,
          List.mem_cons, not_or]
        exact ⟨by decide, ih true⟩
      · simpa [collapseWsAux, hc] using ih true
    · simp only [collapseWsAux, hc, Bool.false_eq_true, if_false,
        List.mem_cons, not_or]
      refine ⟨?_, ih false⟩
      intro h
      rw [← h] at hc
      exact hc (by decide)

/-- Helper: every piece produced by the split scanner draws its characters
from the remaining input, the pending segment, or the pending separator, so
a newline-free input yields newline-free pieces. -/
theorem reSplitGo_no_nl :
    ∀ (l segrev : List Char) (m : RMode),
      '\n' ∉ l → '\n' ∉ segrev →
      (∀ s, m = .wsep s → '\n' ∉ s) → (∀ s, m = .nsep s → '\n' ∉ s) →
      ∀ p ∈ reSplitGo segrev m l, '\n' ∉ p := by
  intro l
  induction l with
  | nil =>
    intro segrev m hl hs hw hn p hp
    cases m with
    | norm =>
      simp only [reSplitGo, List.mem_singleton] at hp
      subst hp
      simpa using hs
    | wsep s =>
      simp only [reSplitGo, List.mem_cons, List.not_mem_nil, or_false] at hp
      rcases hp with rfl | rfl | rfl
      · simpa using hs
      · simpa using hw s rfl
      · simp
    | nsep s =>
      simp only [reSplitGo, List.mem_cons, List.not_mem_nil, or_false] at hp
      rcases hp with rfl | rfl | rfl
      · simpa using hs
      · simpa using hn s rfl
      · simp
  | cons c cs ih =>
    intro segrev m hl hs hw hn p hp
    have hc : ('\n' : Char) ≠ c := by
      intro h
      exact hl (h ▸ List.mem_cons_self c cs)
    have hcs : '\n' ∉ cs := fun h => hl (List.mem_cons_of_mem c h)
    cases m with
    | norm =>
      by_cases h1 : (c = '.' ∨ c = '!' ∨ c = '?') ∧ headIsWs cs
      · rw [show reSplitGo segrev .norm (c :: cs)
            = reSplitGo segrev (.wsep [c]) cs by
              simp only [reSplitGo, if_pos h1]] at hp
        refine ih segrev (.wsep [c]) hcs hs ?_ (by intro s h; cases h) p hp
        intro s h
        cases h
        simpa using hc
      · have h2 : ¬(c = '\n' ∧ headIs '\n' cs) := by
          rintro ⟨h, -⟩
          exact hc h.symm
        rw [show reSplitGo segrev .norm (c :: cs)
            = reSplitGo (c :: segrev) .norm cs by
              simp only [reSplitGo, if_neg h1, if_neg h2]] at hp
        refine ih (c :: segrev) .norm hcs ?_ (by intro s h; cases h)
          (by intro s h; cases h) p hp
        simp only [List.mem_cons, not_or]
        exact ⟨hc, hs⟩
    | wsep s =>
      have hws : '\n' ∉ s := hw s rfl
      by_cases h1 : headIsWs cs = true
      · rw [show reSplitGo segrev (.wsep s) (c :: cs)
            = reSplitGo segrev (.wsep (c :: s)) cs by
              simp only [reSplitGo, if_pos h1]] at hp
        refine ih segrev (.wsep (c :: s)) hcs hs ?_ (by intro x h; cases h) p hp
        intro x h
        cases h
        simp only [List.mem_cons, not_or]
        exact ⟨hc, hws⟩
      · rw [show reSplitGo segrev (.wsep s) (c :: cs)
            = segrev.reverse :: (c :: s).reverse :: reSplitGo [] .norm cs by
              simp only [reSplitGo, if_neg h1]] at hp
        simp only [List.mem_cons] at hp
        rcases hp with rfl | rfl | hp
        · simpa using hs
        · simp only [List.mem_reverse, List.mem_cons, not_or]
          exact ⟨hc, hws⟩
        · exact ih [] .norm hcs (by simp) (by intro x h; cases h)
            (by intro x h; cases h) p hp
    | nsep s =>
      have hns : '\n' ∉ s := hn s rfl
      by_cases h1 : headIs '\n' cs = true
      · rw [show reSplitGo segrev (.nsep s) (c :: cs)
            = reSplitGo segrev (.nsep (c :: s)) cs by
              simp only [reSplitGo, if_pos h1]] at hp
        refine ih segrev (.nsep (c :: s)) hcs hs (by intro x h; cases h) ?_ p hp
        intro x h
        cases h
        simp only [List.mem_cons, not_or]
        exact ⟨hc, hns⟩
      · rw [show reSplitGo segrev (.nsep s) (c :: cs)
            = segrev.reverse :: (c :: s).reverse :: reSplitGo [] .norm cs by
              simp only [reSplitGo, if_neg h1]] at hp
        simp only [List.mem_cons] at hp
        rcases hp with rfl | rfl | hp
        · simpa using hs
        · simp only [List.mem_reverse, List.mem_cons, not_or]
          exact ⟨hc, hns⟩
        · exact ih [] .norm hcs (by simp) (by intro x h; cases h)
            (by intro x h; cases h) p hp

/-- Helper: pairing segments with separators keeps pieces newline-free. -/
theorem pairUnits_no_nl :
    ∀ (l : List (List Char)), (∀ p ∈ l, '\n' ∉ p) →
      ∀ u ∈ pairUnits l, '\n' ∉ u
  | [], _, u, hu => by simp [pairUnits] at hu
  | [s], h, u, hu => by
      simp only [pairUnits, List.mem_singleton] at hu
      subst hu
      exact h _ (by simp)
  | s :: sep :: rest, h, u, hu => by
      simp only [pairUnits, List.mem_cons] at hu
      rcases hu with rfl | hu
      · intro hmem
        rcases List.mem_append.mp hmem with hh | hh
        · exact h s (by simp) hh
        · exact h sep (by simp) hh
      · exact pairUnits_no_nl rest (fun p hp => h p (by simp [hp])) u hu

/-- Helper: the accumulation loop and final flush preserve
newline-freeness of all chunks. -/
theorem chunkFold_no_nl :
    ∀ (units : List (List Char)) (st : CState),
      (∀ u ∈ units, '\n' ∉ u) →
      (∀ c ∈ st.chunks, '\n' ∉ c) → (∀ x ∈ st.cur, '\n' ∉ x) →
      ∀ c ∈ finishChunks (units.foldl chunkStep st), '\n' ∉ c := by
  intro units
  induction units with
  | nil =>
    intro st _ hch hcur c hc
    simp only [List.foldl_nil, finishChunks] at hc
    by_cases hne : st.cur ≠ []
    · rw [if_pos hne] at hc
      rcases List.mem_append.mp hc with h | h
      · exact hch c h
      · rw [List.mem_singleton] at h
        subst h
        intro hmem
        have := pyStrip_subset _ _ hmem
        rw [List.mem_flatten] at this
        obtain ⟨x, hx, hmx⟩ := this
        exact hcur x hx hmx
    · rw [if_neg hne] at hc
      exact hch c hc
  | cons u rest ih =>
    intro st hu hch hcur
    rw [List.foldl_cons]
    have hu0 : '\n' ∉ u := hu u (by simp)
    have hflat : '\n' ∉ st.cur.flatten := by
      rw [List.mem_flatten]
      rintro ⟨x, hx, hmx⟩
      exact hcur x hx hmx
    refine ih (chunkStep st u) (fun v hv => hu v (by simp [hv])) ?_ ?_
    · intro c hc
      simp only [chunkStep] at hc
      by_cases hcond : 1000 < st.curLen + u.length ∧ st.cur ≠ []
      · rw [if_pos hcond] at hc
        simp only at hc
        rcases List.mem_append.mp hc with h | h
        · exact hch c h
        · rw [List.mem_singleton] at h
          subst h
          intro hmem
          exact hflat (pyStrip_subset _ _ hmem)
      · rw [if_neg hcond] at hc
        exact hch c hc
    · intro x hx
      simp only [chunkStep] at hx
      by_cases hcond : 1000 < st.curLen + u.length ∧ st.cur ≠ []
      · rw [if_pos hcond] at hx
        simp only [List.mem_append, List.mem_singleton, List.mem_cons,
          List.not_mem_nil, or_false] at hx
        rcases hx with rfl | rfl
        · intro hmem
          exact hflat (List.mem_of_mem_drop hmem)
        · exact hu0
      · rw [if_neg hcond] at hx
        rcases List.mem_append.mp hx with h | h
        · exact hcur x h
        · rw [List.mem_singleton] at h
          subst h
          exact hu0

/-- C9: no chunk returned by the unified `smart_chunker` contains a newline:
the whitespace-collapse pass rewrites every whitespace run (including the
extractor's heading/list markers) to a single space before segmentation, so
newlines never reach a chunk (and the `\n{2,}` separator alternative can
never match). -/
theorem c9_no_newline :
    ∀ (t c : List Char), c ∈ smart_chunker t → '\n' ∉ c := by
  intro t c hc
  have hclean : '\n' ∉ collapseWs (collapseNl (t.take 200000)) :=
    collapseWsAux_no_nl false _
  have hsegs := reSplitGo_no_nl _ [] .norm hclean (by simp)
    (by intro s h; cases h) (by intro s h; cases h)
  have hunits := pairUnits_no_nl _ hsegs
  have hfold := chunkFold_no_nl _ ⟨[], [], 0⟩ hunits (by simp) (by simp)
  simp only [smart_chunker] at hc
  exact hfold c (List.mem_of_mem_take hc)

/-- C9 witness: the sole chunk of the input "hi" contains no newline. -/
theorem c9_no_newline_witness : '\n' ∉ ['h', 'i'] :=
  c9_no_newline ['h', 'i'] ['h', 'i'] (by decide)

/-- Helper: the split scanner produces a proper alternation whose separators
are all non-empty (a separator is a punctuation mark plus whitespace, or a
run of at least two newlines). -/
theorem reSplitGo_altShape :
    ∀ (l segrev : List Char) (m : RMode),
      (∀ s, m = .wsep s → s ≠ []) → (∀ s, m = .nsep s → s ≠ []) →
      AltShape (reSplitGo segrev m l) := by
  intro l
  induction l with
  | nil =>
    intro segrev m hw hn
    cases m with
    | norm => simp [reSplitGo, AltShape]
    | wsep s =>
      simp only [reSplitGo, AltShape, and_true]
      simpa using hw s rfl
    | nsep s =>
      simp only [reSplitGo, AltShape, and_true]
      simpa using hn s rfl
  | cons c cs ih =>
    intro segrev m hw hn
    cases m with
    | norm =>
      by_cases h1 : (c = '.' ∨ c = '!' ∨ c = '?') ∧ headIsWs cs
      · rw [show reSplitGo segrev .norm (c :: cs)
            = reSplitGo segrev (.wsep [c]) cs by
              simp only [reSplitGo, if_pos h1]]
        refine ih segrev (.wsep [c]) ?_ (by intro s h; cases h)
        intro s h
        cases h
        simp
      · by_cases h2 : c = '\n' ∧ headIs '\n' cs
        · rw [show reSplitGo segrev .norm (c :: cs)
              = reSplitGo segrev (.nsep [c]) cs by
                simp only [reSplitGo, if_neg h1, if_pos h2]]
          refine ih segrev (.nsep [c]) (by intro s h; cases h) ?_
          intro s h
          cases h
          simp
        · rw [show reSplitGo segrev .norm (c :: cs)
              = reSplitGo (c :: segrev) .norm cs by
                simp only [reSplitGo, if_neg h1, if_neg h2]]
          exact ih (c :: segrev) .norm (by intro s h; cases h)
            (by intro s h; cases h)
    | wsep s =>
      by_cases h1 : headIsWs cs = true
      · rw [show reSplitGo segrev (.wsep s) (c :: cs)
            = reSplitGo segrev (.wsep (c :: s)) cs by
              simp only [reSplitGo, if_pos h1]]
        refine ih segrev (.wsep (c :: s)) ?_ (by intro x h; cases h)
        intro x h
        cases h
        simp
      · rw [show reSplitGo segrev (.wsep s) (c :: cs)
            = segrev.reverse :: (c :: s).reverse :: reSplitGo [] .norm cs by
              simp only [reSplitGo, if_neg h1]]
        simp only [AltShape]
        refine ⟨by simp, ?_⟩
        exact ih [] .norm (by intro x h; cases h) (by intro x h; cases h)
    | nsep s =>
      by_cases h1 : headIs '\n' cs = true
      · rw [show reSplitGo segrev (.nsep s) (c :: cs)
            = reSplitGo segrev (.nsep (c :: s)) cs by
              simp only [reSplitGo, if_pos h1]]
        refine ih segrev (.nsep (c :: s)) (by intro x h; cases h) ?_
        intro x h
        cases h
        simp
      · rw [show reSplitGo segrev (.nsep s) (c :: cs)
            = segrev.reverse :: (c :: s).reverse :: reSplitGo [] .norm cs by
              simp only [reSplitGo, if_neg h1]]
        simp only [AltShape]
        refine ⟨by simp, ?_⟩
        exact ih [] .norm (by intro x h; cases h) (by intro x h; cases h)

/-- Helper: non-empty alternation lists pair into non-empty units. -/
theorem pairUnits_ne_nil :
    ∀ (l : List (List Char)), l ≠ [] → pairUnits l ≠ []
  | [], h => absurd rfl h
  | [_], _ => by simp [pairUnits]
  | _ :: _ :: _, _ => by simp [pairUnits]

/-- Helper: pairing a proper alternation gives units that are all non-empty
except possibly the last (each non-final unit ends with its separator). -/
theorem pairUnits_unitsOk :
    ∀ (l : List (List Char)), AltShape l → UnitsOk (pairUnits l)
  | [], h => absurd h (by simp [AltShape])
  | [_], _ => by simp [pairUnits, UnitsOk]
  | s :: sep :: rest, h => by
      simp only [AltShape] at h
      obtain ⟨hsep, hrest⟩ := h
      cases hr : pairUnits rest with
      | nil => simp [pairUnits, hr, UnitsOk]
      | cons a as =>
        have hok := pairUnits_unitsOk rest hrest
        rw [hr] at hok
        simp only [pairUnits, hr, UnitsOk]
        refine ⟨?_, hok⟩
        intro hx
        exact hsep (List.append_eq_nil.mp hx).2

/-- Helper: the trailing-200-character overlap of non-empty content is
non-empty. -/
theorem overlapOf_ne {A : List Char} (h : A ≠ []) : overlapOf A ≠ [] := by
  simp only [overlapOf]
  intro hd
  rw [List.drop_eq_nil_iff] at hd
  have hpos : 0 < A.length := List.length_pos.mpr h
  omega

/-- Helper: flattening a non-empty list of non-empty strings is non-empty. -/
theorem flatten_ne_nil {L : List (List Char)} (h : L ≠ [])
    (h2 : ∀ x ∈ L, x ≠ []) : L.flatten ≠ [] := by
  cases L with
  | nil => exact absurd rfl h
  | cons a as =>
    have ha : a ≠ [] := h2 a (by simp)
    simp only [List.flatten_cons]
    intro hx
    exact ha (List.append_eq_nil.mp hx).1

/-- Helper: extend an adjacent-pair chain by one element related to the
last. -/
theorem chain_append_one {α : Type} {R : α → α → Prop} {l : List α} {x : α}
    (h : List.Chain' R l) (hl : ∀ c, l.getLast? = some c → R c x) :
    List.Chain' R (l ++ [x]) := by
  rw [List.chain'_append]
  refine ⟨h, List.chain'_singleton _, ?_⟩
  intro x hx y hy
  simp only [List.head?_cons, Option.mem_def, Option.some.injEq] at hy
  subst hy
  exact hl x hx

/-- Helper: the instrumented chunker step projects to the plain step. -/
theorem projT_chunkStep (ts : TState) (u : List Char) :
    projT (tChunkStep ts u) = chunkStep (projT ts) u := by
  by_cases h : 1000 < ts.curLen + u.length ∧ ts.cur ≠ []
  · simp [projT, tChunkStep, chunkStep, h]
  · simp [projT, tChunkStep, chunkStep, h]

/-- Helper: the instrumented fold projects to the plain fold. -/
theorem projT_fold :
    ∀ (units : List (List Char)) (ts : TState),
      projT (units.foldl tChunkStep ts) = units.foldl chunkStep (projT ts) := by
  intro units
  induction units with
  | nil => intro ts; rfl
  | cons u rest ih =>
    intro ts
    rw [List.foldl_cons, List.foldl_cons, ih, projT_chunkStep]

/-- Helper: the chunk component of the instrumented chunker is exactly
`smart_chunker`. -/
theorem smartChunkerAccs_fst (t : List Char) :
    (smartChunkerAccs t).1 = smart_chunker t := by
  simp only [smartChunkerAccs, smart_chunker]
  have hfin : ∀ ts : TState, (tFinish ts).1 = finishChunks (projT ts) := by
    intro ts
    by_cases h : ts.cur ≠ [] <;> simp [tFinish, finishChunks, projT, h]
  rw [hfin, projT_fold]
  rfl

/-- Helper: zipping commutes with `take`. -/
theorem zip_take_comm {α β : Type} (n : Nat) (l1 : List α) (l2 : List β) :
    (l1.take n).zip (l2.take n) = (l1.zip l2).take n := by
  simp [List.zip_eq_zipWith, List.take_zipWith]

/-- Helper: the final flush of the instrumented chunker preserves the
chunk/accumulated-content pairing, the count equality, and the overlap
chaining. -/
theorem tFinish_inv (ts : TState)
    (hlen : ts.chunks.length = ts.accs.length)
    (hstrip : ∀ p ∈ ts.chunks.zip ts.accs, p.1 = pyStrip p.2)
    (hch : List.Chain' AccPair (ts.chunks.zip ts.accs))
    (hlink : ∀ q, (ts.chunks.zip ts.accs).getLast? = some q →
      q.2 ≠ [] ∧ ∃ rest, ts.cur.flatten = overlapOf q.2 ++ rest) :
    (tFinish ts).1.length = (tFinish ts).2.length ∧
    (∀ p ∈ (tFinish ts).1.zip (tFinish ts).2, p.1 = pyStrip p.2) ∧
    List.Chain' AccPair ((tFinish ts).1.zip (tFinish ts).2) := by
  by_cases hcur : ts.cur ≠ []
  · simp only [tFinish, if_pos hcur]
    have hz : (ts.chunks ++ [pyStrip ts.cur.flatten]).zip
        (ts.accs ++ [ts.cur.flatten])
        = ts.chunks.zip ts.accs
            ++ [(pyStrip ts.cur.flatten, ts.cur.flatten)] := by
      rw [List.zip_append hlen]
      simp
    refine ⟨by simp [hlen], ?_, ?_⟩
    · intro p hp
      rw [hz] at hp
      rcases List.mem_append.mp hp with h | h
      · exact hstrip p h
      · rw [List.mem_singleton] at h
        subst h
        rfl
    · rw [hz]
      refine chain_append_one hch ?_
      intro q hq
      obtain ⟨hne, rest, hrest⟩ := hlink q hq
      exact ⟨overlapOf_ne hne, rest, hrest⟩
  · simp only [tFinish, if_neg hcur]
    exact ⟨hlen, hstrip, hch⟩

/-- Helper: one step of the instrumented accumulation loop preserves the
pairing, count, chaining and link invariants, and (for a non-empty unit)
the non-emptiness of the current accumulation's pieces. -/
theorem tChunkStep_inv (ts : TState) (u : List Char)
    (hlen : ts.chunks.length = ts.accs.length)
    (hstrip : ∀ p ∈ ts.chunks.zip ts.accs, p.1 = pyStrip p.2)
    (hch : List.Chain' AccPair (ts.chunks.zip ts.accs))
    (hlink : ∀ q, (ts.chunks.zip ts.accs).getLast? = some q →
      q.2 ≠ [] ∧ ∃ rest, ts.cur.flatten = overlapOf q.2 ++ rest)
    (hcurne : ∀ x ∈ ts.cur, x ≠ []) :
    ((tChunkStep ts u).chunks.length = (tChunkStep ts u).accs.length ∧
     (∀ p ∈ (tChunkStep ts u).chunks.zip (tChunkStep ts u).accs,
        p.1 = pyStrip p.2) ∧
     List.Chain' AccPair
       ((tChunkStep ts u).chunks.zip (tChunkStep ts u).accs) ∧
     (∀ q, ((tChunkStep ts u).chunks.zip (tChunkStep ts u).accs).getLast?
          = some q →
        q.2 ≠ [] ∧ ∃ rest, (tChunkStep ts u).cur.flatten
          = overlapOf q.2 ++ rest)) ∧
    (u ≠ [] → ∀ x ∈ (tChunkStep ts u).cur, x ≠ []) := by
  by_cases hcond : 1000 < ts.curLen + u.length ∧ ts.cur ≠ []
  · have hj : ts.cur.flatten ≠ [] := flatten_ne_nil hcond.2 hcurne
    have hz : (ts.chunks ++ [pyStrip ts.cur.flatten]).zip
        (ts.accs ++ [ts.cur.flatten])
        = ts.chunks.zip ts.accs
            ++ [(pyStrip ts.cur.flatten, ts.cur.flatten)] := by
      rw [List.zip_append hlen]
      simp
    simp only [tChunkStep, if_pos hcond]
    refine ⟨⟨by simp [hlen], ?_, ?_, ?_⟩, ?_⟩
    · intro p hp
      rw [hz] at hp
      rcases List.mem_append.mp hp with h | h
      · exact hstrip p h
      · rw [List.mem_singleton] at h
        subst h
        rfl
    · rw [hz]
      refine chain_append_one hch ?_
      intro q hq
      obtain ⟨hne, rest, hrest⟩ := hlink q hq
      exact ⟨overlapOf_ne hne, rest, hrest⟩
    · intro q hq
      rw [hz, List.getLast?_concat] at hq
      obtain rfl : q = (pyStrip ts.cur.flatten, ts.cur.flatten) := by
        simpa using hq.symm
      refine ⟨hj, u, ?_⟩
      simp [List.singleton_append, List.flatten_cons]
    · intro hu x hx
      simp only [List.singleton_append, List.cons_append, List.nil_append,
        List.mem_cons, List.not_mem_nil, or_false] at hx
      rcases hx with rfl | rfl
      · exact overlapOf_ne hj
      · exact hu
  · simp only [tChunkStep, if_neg hcond]
    refine ⟨⟨hlen, hstrip, hch, ?_⟩, ?_⟩
    · intro q hq
      obtain ⟨hne, rest, hrest⟩ := hlink q hq
      refine ⟨hne, rest ++ u, ?_⟩
      simp only [List.flatten_append, List.flatten_cons, List.flatten_nil,
        List.append_nil, hrest, List.append_assoc]
    · intro hu x hx
      rcases List.mem_append.mp hx with h | h
      · exact hcurne x h
      · rw [List.mem_singleton] at h
        subst h
        exact hu

/-- Helper: over a unit stream whose non-final units are non-empty, the
instrumented loop plus final flush yields equal chunk and accumulated
counts, chunk = strip(accumulated) for every pair, and overlap chaining
between successive accumulated contents. -/
theorem tChunkFold_chain :
    ∀ (units : List (List Char)) (ts : TState),
      UnitsOk units →
      ts.chunks.length = ts.accs.length →
      (∀ p ∈ ts.chunks.zip ts.accs, p.1 = pyStrip p.2) →
      List.Chain' AccPair (ts.chunks.zip ts.accs) →
      (∀ q, (ts.chunks.zip ts.accs).getLast? = some q →
        q.2 ≠ [] ∧ ∃ rest, ts.cur.flatten = overlapOf q.2 ++ rest) →
      (∀ x ∈ ts.cur, x ≠ []) →
      (tFinish (units.foldl tChunkStep ts)).1.length
          = (tFinish (units.foldl tChunkStep ts)).2.length ∧
      (∀ p ∈ (tFinish (units.foldl tChunkStep ts)).1.zip
          (tFinish (units.foldl tChunkStep ts)).2, p.1 = pyStrip p.2) ∧
      List.Chain' AccPair ((tFinish (units.foldl tChunkStep ts)).1.zip
        (tFinish (units.foldl tChunkStep ts)).2)
  | [], ts, _, hlen, hstrip, hch, hlink, _ =>
      tFinish_inv ts hlen hstrip hch hlink
  | [u], ts, _, hlen, hstrip, hch, hlink, hcur => by
      rw [List.foldl_cons, List.foldl_nil]
      obtain ⟨⟨h1, h2, h3, h4⟩, -⟩ :=
        tChunkStep_inv ts u hlen hstrip hch hlink hcur
      exact tFinish_inv _ h1 h2 h3 h4
  | u :: u2 :: rest, ts, hun, hlen, hstrip, hch, hlink, hcur => by
      simp only [UnitsOk] at hun
      obtain ⟨hu, hun2⟩ := hun
      rw [List.foldl_cons]
      obtain ⟨⟨h1, h2, h3, h4⟩, h5⟩ :=
        tChunkStep_inv ts u hlen hstrip hch hlink hcur
      exact tChunkFold_chain (u2 :: rest) (tChunkStep ts u) hun2 h1 h2 h3 h4
        (h5 hu)

/-- C7 (amended): the chunk list of `smart_chunker` is exactly the first
component of the instrumented run `smartChunkerAccs`, whose second
component records each chunk's actual accumulated content; the two lists
have equal length, every chunk equals the strip of its own accumulated
content, and for adjacent chunks the overlap region — the trailing
`min(200, |A|)` characters of chunk i's accumulated content `A` — is
non-empty and chunk i+1's accumulated content is exactly that overlap
followed by the segments accumulated after the close (so chunk i+1 is the
strip of overlap ++ rest).  Because both chunks are stripped, chunk i+1
need not literally begin with a suffix of `A`. -/
theorem c7_overlap_amended :
    ∀ (t : List Char),
      (smartChunkerAccs t).1 = smart_chunker t ∧
      (smartChunkerAccs t).1.length = (smartChunkerAccs t).2.length ∧
      (∀ p ∈ (smartChunkerAccs t).1.zip (smartChunkerAccs t).2,
        p.1 = pyStrip p.2) ∧
      List.Chain' AccPair
        ((smartChunkerAccs t).1.zip (smartChunkerAccs t).2) := by
  intro t
  have halt := reSplitGo_altShape (collapseWs (collapseNl (t.take 200000)))
    [] .norm (by intro s h; cases h) (by intro s h; cases h)
  have hunits := pairUnits_unitsOk _ halt
  obtain ⟨h1, h2, h3⟩ := tChunkFold_chain
    (pairUnits (reSplit (collapseWs (collapseNl (t.take 200000)))))
    ⟨[], [], [], 0⟩ hunits rfl (by intro p hp; simp at hp) List.chain'_nil
    (by intro q hq; simp at hq) (by simp)
  refine ⟨smartChunkerAccs_fst t, ?_, ?_, ?_⟩
  · simp only [smartChunkerAccs]
    simp [List.length_take, h1]
  · intro p hp
    simp only [smartChunkerAccs] at hp
    rw [zip_take_comm] at hp
    exact h2 p (List.mem_of_mem_take hp)
  · simp only [smartChunkerAccs]
    rw [zip_take_comm]
    exact h3.take 20

/-- C7 counterexample: on the input `ex7` (1001 `x`s then ". ") the chunks
are `ex7c0` and `ex7c1` and chunk 0's accumulated content is `ex7` itself,
but no non-empty prefix of chunk 1 is a suffix of that accumulated content
(every non-empty suffix ends in the space that stripping removed), so chunk
1 does not begin with any non-empty suffix of chunk 0's accumulated content,
of any length. -/
theorem c7_overlap_counterexample :
    smart_chunker ex7 = [ex7c0, ex7c1] ∧
    smartChunkerAccs ex7 = ([ex7c0, ex7c1], [ex7, ex7a1]) ∧
    (∀ R : List Char, (∃ q, R ++ q = ex7c1) → (∃ p, p ++ R = ex7) → R = []) := by
  refine ⟨by decide, by decide, ?_⟩
  rintro R ⟨q, hq⟩ ⟨p, hp⟩
  by_contra hne
  have hlast : ' ' ∈ R.getLast? := by
    have h1 : (p ++ R).getLast? = R.getLast? :=
      List.getLast?_append_of_ne_nil p hne
    rw [hp] at h1
    rw [← h1]
    decide
  have hmemR : ' ' ∈ R := List.mem_of_mem_getLast? hlast
  have hmemC : ' ' ∈ ex7c1 := by
    rw [← hq]
    exact List.mem_append.mpr (Or.inl hmemR)
  exact absurd hmemC (by decide)

/-- C8 witness: fetching the unknown URL "z" in the world `env8` fails and
is contained: `(False, [])` with the failure counted. -/
theorem c8_failure_containment_witness :
    processWebpage env8 stEmpty "z" 1 =
      ((false, []),
       { stEmpty with calls := stEmpty.calls ++ [("z", 1)],
                      failedCount := stEmpty.failedCount + 1 }) :=
  (c8_failure_containment Unit env8 stEmpty "z" 1 []).1 (by decide)

end Ingest
